import Mathlib

/-!
Shallow embedding of the latency-aggregation metrics engine of the `gocb`
client library (`AggregatingMeter`, `latencyHistogram`,
`cumulativeLatencyHistogram`, `aggregatingValueRecorder` and the background
logger routine), together with proofs about the properties claimed in the
specification.

Modelling conventions:
* Go `float64` arithmetic (`math.Log`, `math.Ceil`, `math.Pow`, comparisons)
  is idealised as real-number arithmetic over `ℝ`; every numeric fact proved
  here is far from any floating-point rounding boundary.
* Go `uint64` counters are `ℕ` with an explicit `% 2 ^ 64` at the points where
  the machine addition wraps.
* A Go slice access that can panic (an out-of-range bin index) is modelled by
  returning `Option`/failing, never by silently clamping.
* Go maps are modelled as association lists; Go map iteration order is
  unspecified, the list order is fixed, and no claim depends on the order.
-/

namespace Gocb

/-- The modulus of Go `uint64` arithmetic. -/
def U64 : ℕ := 2 ^ 64

/-- The `latencyHistogram` struct: `bins` are `uint64` counters; the five
real-valued fields mirror the Go `float64` fields. -/
structure LatencyHistogram where
  bins : List ℕ
  maxValue : ℝ
  scaleFactor : ℝ
  ratioLog : ℝ
  commonRatio : ℝ
  startValue : ℝ

/-- The `cumulativeLatencyHistogram` struct (a snapshot of prefix-summed
bins together with the shape parameters needed to render bounds). -/
structure CumulativeLatencyHistogram where
  bins : List ℕ
  commonRatio : ℝ
  startValue : ℝ

/-- `newLatencyHistogram`: `numBuckets = ceil(log(maxValue/startValue) /
log(commonRatio)) + 2`; the Go `int(·)` conversion of the (integral) float is
the identity on the values reachable here, and `Int.toNat` models the
nonnegative slice length. -/
noncomputable def newLatencyHistogram (maxValue startValue commonRatio : ℝ) :
    LatencyHistogram :=
  let ratio := Real.log commonRatio
  let numBuckets := ⌈Real.log (maxValue / startValue) / ratio⌉ + 2
  { bins := List.replicate numBuckets.toNat 0
    maxValue := maxValue
    scaleFactor := startValue
    ratioLog := ratio
    commonRatio := commonRatio
    startValue := startValue }

/-- The bin-selection computation of `latencyHistogram.RecordValue`, kept as a
signed integer exactly as the Go `int` variable `bin`. -/
noncomputable def binIndex (lh : LatencyHistogram) (value : ℕ) : ℤ :=
  let v : ℝ := value
  if lh.maxValue < v then (lh.bins.length : ℤ) - 1
  else if v ≤ lh.scaleFactor then 0
  else ⌈Real.log (v / lh.scaleFactor) / lh.ratioLog⌉

/-- `latencyHistogram.RecordValue`: increments `bins[bin]` (a wrapping
`uint64` add).  The slice access panics when `bin` is out of range, modelled
by `none`. -/
noncomputable def recordValue (lh : LatencyHistogram) (value : ℕ) :
    Option LatencyHistogram :=
  if 0 ≤ binIndex lh value ∧ (binIndex lh value).toNat < lh.bins.length then
    some { lh with
      bins := lh.bins.set (binIndex lh value).toNat
        ((lh.bins.getD (binIndex lh value).toNat 0 + 1) % U64) }
  else none

/-- The running-sum loop of `AggregateAndReset`: `countSoFar += thisCount` in
wrapping `uint64` arithmetic, storing the running sum at each index. -/
def cumsumU64 : List ℕ → ℕ → List ℕ
  | [], _ => []
  | b :: rest, acc => ((acc + b) % U64) :: cumsumU64 rest ((acc + b) % U64)

/-- `latencyHistogram.AggregateAndReset`: atomically swaps every bin to zero
while accumulating prefix sums; returns the snapshot together with the reset
histogram (the Go method mutates `lh` in place). -/
def aggregateAndReset (lh : LatencyHistogram) :
    CumulativeLatencyHistogram × LatencyHistogram :=
  ({ bins := cumsumU64 lh.bins 0
     commonRatio := lh.commonRatio
     startValue := lh.startValue },
   { lh with bins := List.replicate lh.bins.length 0 })

/-- `cumulativeLatencyHistogram.TotalCount`: `bins[len(bins)-1]`.  The Go
access panics on an empty slice; every snapshot the code produces is nonempty,
and `getD` with default `0` is only a notational convenience here. -/
def totalCount (lhs : CumulativeLatencyHistogram) : ℕ :=
  lhs.bins.getD (lhs.bins.length - 1) 0

/-- Rendering of Go `fmt.Sprintf` with verb `%.2f`: the decimal numeral of the
argument rounded to two fractional digits.  Every value formatted by the
claims is an exact multiple of `1/100`, so the tie-breaking rule of the float
formatter is never exercised. -/
noncomputable def fmtFixed2 (x : ℝ) : String :=
  let m : ℤ := round (x * 100)
  let n : ℕ := m.natAbs
  let frac : ℕ := n % 100
  let fracStr := if frac < 10 then "0" ++ toString frac else toString frac
  let s := toString (n / 100) ++ "." ++ fracStr
  if m < 0 then "-" ++ s else s

/-- The scan loop of `BinAtPercentile`: first index (counting from `i`) whose
bin value reaches the threshold. -/
def binScan : List ℕ → ℕ → ℕ → Option ℕ
  | [], _, _ => none
  | b :: rest, t, i => if t ≤ b then some i else binScan rest t (i + 1)

/-- `cumulativeLatencyHistogram.BinAtPercentile`: threshold
`uint64(ceil((p/100) * TotalCount()))`, then the scan; the last bin renders as
`"> commonRatio^(i-1)*startValue"`, any other as
`"<= commonRatio^i*startValue"`, and the defensive fall-through returns
`"0.0"`. -/
noncomputable def binAtPercentile (lhs : CumulativeLatencyHistogram)
    (percentile : ℝ) : String :=
  match binScan lhs.bins
      ((⌈(percentile / 100) * (totalCount lhs : ℝ)⌉).toNat) 0 with
  | some i =>
    if i = lhs.bins.length - 1 then
      "> " ++ fmtFixed2 (lhs.commonRatio ^ ((i : ℤ) - 1) * lhs.startValue)
    else
      "<= " ++ fmtFixed2 (lhs.commonRatio ^ (i : ℤ) * lhs.startValue)
  | none => "0.0"

/-- Recording a sequence of values one after the other (the driver used by the
claims about whole intervals); fails as soon as one `RecordValue` would
panic. -/
noncomputable def recordMany : LatencyHistogram → List ℕ → Option LatencyHistogram
  | lh, [] => some lh
  | lh, v :: vs => (recordValue lh v).bind fun lh' => recordMany lh' vs

/-- The `aggregatingValueRecorder` struct. -/
structure AggregatingValueRecorder where
  peerName : String
  hist : LatencyHistogram

/-- `newAggregatingValueRecorder`: the fixed histogram shape
`(2000000, 1000, 1.5)`. -/
noncomputable def newAggregatingValueRecorder (peerName : String) :
    AggregatingValueRecorder :=
  { peerName := peerName
    hist := newLatencyHistogram 2000000 1000 1.5 }

/-- The map emitted per recorder by `GetAndResetValues` (`total_count` plus
the five fixed percentile strings). -/
structure RecorderOutput where
  total_count : ℕ
  p50 : String
  p90 : String
  p99 : String
  p999 : String
  p100 : String

/-- `aggregatingValueRecorder.GetAndResetValues`: aggregate-and-reset, then
build the output map; returns the output together with the recorder holding
the reset histogram. -/
noncomputable def getAndResetValues (bc : AggregatingValueRecorder) :
    RecorderOutput × AggregatingValueRecorder :=
  let p := aggregateAndReset bc.hist
  ({ total_count := totalCount p.1
     p50 := binAtPercentile p.1 50
     p90 := binAtPercentile p.1 90
     p99 := binAtPercentile p.1 99
     p999 := binAtPercentile p.1 99.9
     p100 := binAtPercentile p.1 100 },
   { bc with hist := p.2 })

/-- Modelled from the spec: the recognised metric name (the constant
`meterNameResponses`, defined outside the covered sources); only its identity
matters. -/
def meterNameResponses : String := "db.couchbase.responses"

/-- Modelled from the spec: the tag key carrying the service identifier
(`meterAttribServiceKey`, defined outside the covered sources). -/
def meterAttribServiceKey : String := "db.couchbase.service"

/-- Modelled from the spec: the tag key carrying the peer/node identifier
(`meterAttribPeerName`, defined outside the covered sources). -/
def meterAttribPeerName : String := "db.couchbase.peer_name"

/-- Modelled from the spec: the KV service identifier (`meterValueServiceKV`,
defined outside the covered sources). -/
def meterValueServiceKV : String := "kv"

/-- Modelled from the spec: the Views service identifier. -/
def meterValueServiceViews : String := "views"

/-- Modelled from the spec: the Query service identifier. -/
def meterValueServiceQuery : String := "query"

/-- Modelled from the spec: the Search service identifier. -/
def meterValueServiceSearch : String := "search"

/-- Modelled from the spec: the Analytics service identifier. -/
def meterValueServiceAnalytics : String := "analytics"

/-- Modelled from the spec: the Management service identifier. -/
def meterValueServiceManagement : String := "management"

/-- Association-list lookup, modelling a Go map read (`m[k]` with the comma-ok
idiom / nil-on-miss). -/
def lookupA {α : Type} : List (String × α) → String → Option α
  | [], _ => none
  | (k, v) :: rest, key => if k = key then some v else lookupA rest key

/-- Association-list update at an existing key, modelling an in-place mutation
through a Go map entry. -/
def updateA {α : Type} : List (String × α) → String → α → List (String × α)
  | [], _, _ => []
  | (k', v') :: rest, key, v =>
    (if k' = key then (k', v) else (k', v')) :: updateA rest key v

/-- The `aggregatingMeterGroup` struct: a map from peer label to recorder (the
mutex is not represented; the embedding is sequential). -/
structure AggregatingMeterGroup where
  recorders : List (String × AggregatingValueRecorder)

/-- The `AggregatingMeter` struct (the stop channel is represented by the
`running` flag of the logger state machine below). -/
structure AggregatingMeter where
  interval : ℕ
  valueRecorderGroups : List (String × AggregatingMeterGroup)

/-- `NewAggregatingMeter`: interval in nanoseconds, `0` (the unset value)
defaulting to 10 minutes; one empty recorder group per service. -/
def newAggregatingMeter (emitInterval : ℕ) : AggregatingMeter :=
  { interval := if emitInterval = 0 then 600000000000 else emitInterval
    valueRecorderGroups :=
      [(meterValueServiceKV, ⟨[]⟩),
       (meterValueServiceViews, ⟨[]⟩),
       (meterValueServiceQuery, ⟨[]⟩),
       (meterValueServiceSearch, ⟨[]⟩),
       (meterValueServiceAnalytics, ⟨[]⟩),
       (meterValueServiceManagement, ⟨[]⟩)] }

/-- The value returned by `AggregatingMeter.ValueRecorder`: either the shared
no-op recorder or a reference to the recorder stored under
`(service, peer)` — Go returns a pointer, so a reference is modelled by the
key pair that resolves it in the meter. -/
inductive ValueRecorderRef
  | noop
  | agg (service peer : String)
deriving DecidableEq

/-- `AggregatingMeter.ValueRecorder`: the guard chain (metric name, service
tag, known service group, peer tag), then get-or-create under the group's
lock.  Returns the reference together with the (possibly extended) meter. -/
noncomputable def valueRecorder (am : AggregatingMeter) (name : String)
    (tags : List (String × String)) : ValueRecorderRef × AggregatingMeter :=
  if name ≠ meterNameResponses then (.noop, am)
  else
    match lookupA tags meterAttribServiceKey with
    | none => (.noop, am)
    | some service =>
      match lookupA am.valueRecorderGroups service with
      | none => (.noop, am)
      | some group =>
        match lookupA tags meterAttribPeerName with
        | none => (.noop, am)
        | some peerName =>
          match lookupA group.recorders peerName with
          | some _ => (.agg service peerName, am)
          | none =>
            (.agg service peerName,
             { am with
               valueRecorderGroups := updateA am.valueRecorderGroups service
                 ⟨(peerName, newAggregatingValueRecorder peerName) ::
                   group.recorders⟩ })

/-- The output structure built by `generateOutput`: the `meta` section plus
one entry per included service. -/
structure MeterOutput where
  metaInterval : ℕ
  services : List (String × List (String × RecorderOutput))

/-- `len(jsonData)` of the Go output map: the `meta` key plus one key per
included service (the service identifiers are fixed constants distinct from
`"meta"`). -/
def outputSize (out : MeterOutput) : ℕ := 1 + out.services.length

/-- The per-group body of `generateOutput`: skip an empty group, otherwise
build the peer-keyed service map from each recorder's `GetAndResetValues`
(which also resets the recorder) and include the service when the map is
nonempty.  `getAndResetValues` is pure, so calling it for the output and for
the reset recorder denotes the single Go call. -/
noncomputable def generateOutputStep (g : String × AggregatingMeterGroup) :
    Option (String × List (String × RecorderOutput)) ×
      (String × AggregatingMeterGroup) :=
  let recorders := g.2.recorders
  if recorders.length = 0 then (none, g)
  else
    let serviceMap := recorders.map fun pr =>
      (pr.2.peerName, (getAndResetValues pr.2).1)
    let newRecs := recorders.map fun pr => (pr.1, (getAndResetValues pr.2).2)
    (if 0 < serviceMap.length then some (g.1, serviceMap) else none,
     (g.1, ⟨newRecs⟩))

/-- `AggregatingMeter.generateOutput`: the `meta` section plus the included
services; returns the output together with the meter whose visited recorders
have been reset. -/
noncomputable def generateOutput (am : AggregatingMeter) :
    MeterOutput × AggregatingMeter :=
  ({ metaInterval := am.interval
     services := am.valueRecorderGroups.filterMap fun g =>
       (generateOutputStep g).1 },
   { am with
     valueRecorderGroups := am.valueRecorderGroups.map fun g =>
       (generateOutputStep g).2 })

/-- A line handed to the logging sink, at its level. -/
inductive LogEvent
  | debug (msg : String)
  | info (msg : String)
deriving DecidableEq

/-- The `logDebugf` line emitted when marshalling fails. -/
def marshalFailMsg (e : String) : String :=
  "Failed to generate threshold logging service JSON: " ++ e

/-- The `logInfof` line; on a marshalling failure the nil byte slice renders
as the empty string. -/
def aggregateMsg (b : String) : String := "Aggregate metrics: " ++ b

/-- The observable result of one pass of the `loggerRoutine` loop body after
the timer fires. -/
structure TickResult where
  meter : AggregatingMeter
  running : Bool
  logs : List LogEvent

/-- One `loggerRoutine` iteration after a timer tick, parametrised by the
marshaller (`json.Marshal` lives outside the covered sources): generate the
output; when it holds nothing beyond `meta` the routine returns; otherwise a
marshalling failure is logged at debug level and `logInfof` runs
unconditionally with the (possibly nil) bytes. -/
noncomputable def tickStep (marshal : MeterOutput → Except String String)
    (am : AggregatingMeter) : TickResult :=
  if outputSize (generateOutput am).1 = 1 then
    { meter := (generateOutput am).2, running := false, logs := [] }
  else
    match marshal (generateOutput am).1 with
    | .error e =>
      { meter := (generateOutput am).2, running := true
        logs := [.debug (marshalFailMsg e), .info (aggregateMsg "")] }
    | .ok bs =>
      { meter := (generateOutput am).2, running := true
        logs := [.info (aggregateMsg bs)] }

/-- A recording reported through the meter facade: resolve (creating if
needed) the recorder for `(service, peer)` and record into its histogram.
The `getD` keeps the driver total; the out-of-range panic cannot occur for
the fixed recorder shape (see the index-bounds theorem). -/
noncomputable def meterRecord (am : AggregatingMeter) (service peer : String)
    (value : ℕ) : AggregatingMeter :=
  let p := valueRecorder am meterNameResponses
    [(meterAttribServiceKey, service), (meterAttribPeerName, peer)]
  match p.1 with
  | .noop => p.2
  | .agg s pr =>
    { p.2 with
      valueRecorderGroups := p.2.valueRecorderGroups.map fun g =>
        if g.1 = s then
          (g.1, ⟨g.2.recorders.map fun r =>
            if r.1 = pr then
              (r.1, { r.2 with hist := (recordValue r.2.hist value).getD r.2.hist })
            else r⟩)
        else g }

/-- The events the running system presents to the logger loop: a timer tick,
the stop signal, or a recording arriving from a request context. -/
inductive MeterEvent
  | tick
  | stop
  | record (service peer : String) (value : ℕ)

/-- The `loggerRoutine` loop run over a sequence of events.  `running` is
whether the routine is still inside its `for` loop; once the routine has
returned, later ticks do nothing, while recordings (which come from other
contexts) still mutate the meter. -/
noncomputable def loggerRun (marshal : MeterOutput → Except String String) :
    AggregatingMeter → Bool → List MeterEvent →
      AggregatingMeter × Bool × List LogEvent
  | am, running, [] => (am, running, [])
  | am, running, .record s p v :: rest =>
    loggerRun marshal (meterRecord am s p v) running rest
  | am, _running, .stop :: rest => loggerRun marshal am false rest
  | am, running, .tick :: rest =>
    if running then
      let r := tickStep marshal am
      let res := loggerRun marshal r.meter r.running rest
      (res.1, res.2.1, r.logs ++ res.2.2)
    else loggerRun marshal am running rest

/-! ### Helper lemmas about the histogram shape and bin selection -/

/-- The number of bins `newLatencyHistogram` allocates. -/
noncomputable def numBins (M S R : ℝ) : ℕ :=
  (⌈Real.log (M / S) / Real.log R⌉ + 2).toNat

lemma newLatencyHistogram_bins (M S R : ℝ) :
    (newLatencyHistogram M S R).bins = List.replicate (numBins M S R) 0 := rfl

lemma newLatencyHistogram_length (M S R : ℝ) :
    (newLatencyHistogram M S R).bins.length = numBins M S R := by
  simp [newLatencyHistogram, numBins]

/-- The fields of a live histogram constructed with shape `(M, S, R)`:
construction fixes the scalar fields and the bin count, and only the bin
contents mutate afterwards. -/
def hasShape (lh : LatencyHistogram) (M S R : ℝ) : Prop :=
  lh.maxValue = M ∧ lh.scaleFactor = S ∧ lh.startValue = S ∧
  lh.ratioLog = Real.log R ∧ lh.commonRatio = R ∧
  lh.bins.length = numBins M S R

lemma hasShape_new (M S R : ℝ) : hasShape (newLatencyHistogram M S R) M S R :=
  ⟨rfl, rfl, rfl, rfl, rfl, newLatencyHistogram_length M S R⟩

lemma one_le_ceil_logRatio {M S R : ℝ} (hS : 0 < S) (hSM : S < M)
    (hR : 1 < R) : 1 ≤ ⌈Real.log (M / S) / Real.log R⌉ :=
  Int.ceil_pos.2 (div_pos (Real.log_pos ((one_lt_div hS).2 hSM))
    (Real.log_pos hR))

lemma three_le_numBins {M S R : ℝ} (hS : 0 < S) (hSM : S < M) (hR : 1 < R) :
    3 ≤ numBins M S R := by
  have h1 := one_le_ceil_logRatio hS hSM hR
  unfold numBins
  omega

lemma numBins_cast {M S R : ℝ} (hS : 0 < S) (hSM : S < M) (hR : 1 < R) :
    (numBins M S R : ℤ) = ⌈Real.log (M / S) / Real.log R⌉ + 2 := by
  have h1 := one_le_ceil_logRatio hS hSM hR
  unfold numBins
  omega

/-- Bounds on the selected bin index for a valid shape: always within the bin
array, and strictly before the overflow bin for values not exceeding
`maxValue`. -/
lemma binIndex_bounds {M S R : ℝ} (lh : LatencyHistogram)
    (hsh : hasShape lh M S R) (hS : 0 < S) (hSM : S < M) (hR : 1 < R)
    (v : ℕ) :
    0 ≤ binIndex lh v ∧ (binIndex lh v).toNat < lh.bins.length ∧
      ((v : ℝ) ≤ M → (binIndex lh v).toNat < lh.bins.length - 1) := by
  obtain ⟨hM, hSc, _hSt, hRl, _hCr, hLen⟩ := hsh
  have hq1 := one_le_ceil_logRatio hS hSM hR
  have hnb := three_le_numBins hS hSM hR
  have hnbc := numBins_cast hS hSM hR
  unfold binIndex
  rw [hM, hSc, hRl, hLen]
  by_cases h1 : M < (v : ℝ)
  · rw [if_pos h1]
    refine ⟨by omega, by omega, fun hle => absurd h1 (not_lt.2 hle)⟩
  · rw [if_neg h1]
    by_cases h2 : (v : ℝ) ≤ S
    · rw [if_pos h2]
      exact ⟨le_refl 0, by omega, fun _ => by omega⟩
    · rw [if_neg h2]
      push_neg at h1 h2
      have hvS : (1 : ℝ) < (v : ℝ) / S := (one_lt_div hS).2 h2
      have hcl : 1 ≤ ⌈Real.log ((v : ℝ) / S) / Real.log R⌉ :=
        Int.ceil_pos.2 (div_pos (Real.log_pos hvS) (Real.log_pos hR))
      have hdivle : (v : ℝ) / S ≤ M / S := (div_le_div_iff_of_pos_right hS).2 h1
      have hlogle : Real.log ((v : ℝ) / S) ≤ Real.log (M / S) :=
        Real.log_le_log (by positivity) hdivle
      have hceille : ⌈Real.log ((v : ℝ) / S) / Real.log R⌉ ≤
          ⌈Real.log (M / S) / Real.log R⌉ :=
        Int.ceil_le_ceil ((div_le_div_iff_of_pos_right (Real.log_pos hR)).2 hlogle)
      exact ⟨by omega, by omega, fun _ => by omega⟩

lemma recordValue_eq_some {M S R : ℝ} (lh : LatencyHistogram)
    (hsh : hasShape lh M S R) (hS : 0 < S) (hSM : S < M) (hR : 1 < R)
    (v : ℕ) :
    recordValue lh v = some { lh with
      bins := lh.bins.set (binIndex lh v).toNat
        ((lh.bins.getD (binIndex lh v).toNat 0 + 1) % U64) } := by
  obtain ⟨hb0, hb1, -⟩ := binIndex_bounds lh hsh hS hSM hR v
  unfold recordValue
  rw [if_pos ⟨hb0, hb1⟩]

lemma getD_set_self : ∀ (l : List ℕ) (i : ℕ) (a : ℕ), i < l.length →
    (l.set i a).getD i 0 = a
  | _ :: _, 0, _, _ => rfl
  | _ :: xs, i + 1, a, h =>
    getD_set_self xs i a (by simpa using h)

lemma getD_set_ne : ∀ (l : List ℕ) (i j : ℕ) (a : ℕ), j ≠ i →
    (l.set i a).getD j 0 = l.getD j 0
  | [], _, _, _, _ => rfl
  | _ :: _, 0, 0, _, h => absurd rfl h
  | _ :: _, 0, _ + 1, _, _ => rfl
  | _ :: _, _ + 1, 0, _, _ => rfl
  | _ :: xs, i + 1, j + 1, a, h =>
    getD_set_ne xs i j a (by omega)

lemma recordValue_length {lh : LatencyHistogram} {v : ℕ}
    {lh' : LatencyHistogram} (h : recordValue lh v = some lh') :
    lh'.bins.length = lh.bins.length := by
  unfold recordValue at h
  split at h
  · cases h
    simp
  · cases h

lemma cumsumU64_length : ∀ (l : List ℕ) (acc : ℕ),
    (cumsumU64 l acc).length = l.length
  | [], _ => rfl
  | _ :: xs, acc => by
    simp only [cumsumU64, List.length_cons]
    rw [cumsumU64_length xs]

/-- C8: every histogram constructed with shape parameters
`(maxValue, startValue, commonRatio)` has exactly
`ceil(log(maxValue/startValue)/log(commonRatio)) + 2` bins; neither recording
nor aggregate-and-reset ever changes that length; and every value recorder's
histogram is built with the fixed shape
`maxValue = 2000000, startValue = 1000, commonRatio = 1.5`. -/
theorem histogram_bin_count_invariant :
    (∀ M S R : ℝ, (newLatencyHistogram M S R).bins.length =
      (⌈Real.log (M / S) / Real.log R⌉ + 2).toNat) ∧
    (∀ (lh : LatencyHistogram) (v : ℕ) (lh' : LatencyHistogram),
      recordValue lh v = some lh' → lh'.bins.length = lh.bins.length) ∧
    (∀ lh : LatencyHistogram,
      (aggregateAndReset lh).2.bins.length = lh.bins.length ∧
      (aggregateAndReset lh).1.bins.length = lh.bins.length) ∧
    (∀ p : String, (newAggregatingValueRecorder p).hist =
      newLatencyHistogram 2000000 1000 1.5) := by
  refine ⟨?_, ?_, ?_, ?_⟩
  · intro M S R
    simp [newLatencyHistogram]
  · intro lh v lh' h
    exact recordValue_length h
  · intro lh
    exact ⟨by simp [aggregateAndReset], by simp [aggregateAndReset, cumsumU64_length]⟩
  · intro p
    rfl

/-! ### A concrete live histogram for witnesses: shape `(8, 1, 2)` has an
exactly evaluable bin count (`log 8 / log 2 = 3`, so 5 bins). -/

/-- A live histogram of shape `(8, 1, 2)` with five zeroed bins. -/
noncomputable def histW : LatencyHistogram :=
  ⟨List.replicate 5 0, 8, 1, Real.log 2, 2, 1⟩

lemma numBins_8_1_2 : numBins 8 1 2 = 5 := by
  have hlog : Real.log ((8 : ℝ) / 1) / Real.log 2 = ((3 : ℕ) : ℝ) := by
    rw [show ((8 : ℝ) / 1) = 2 ^ (3 : ℕ) by norm_num, Real.log_pow,
      mul_div_assoc,
      div_self (ne_of_gt (Real.log_pos (by norm_num : (1 : ℝ) < 2))), mul_one]
  unfold numBins
  rw [hlog, Int.ceil_natCast]
  rfl

lemma hasShape_histW : hasShape histW 8 1 2 :=
  ⟨rfl, rfl, rfl, rfl, rfl, by simp [histW, numBins_8_1_2]⟩

/-- The result of recording the value `0` into `histW`. -/
noncomputable def histW1 : LatencyHistogram :=
  ⟨[1, 0, 0, 0, 0], 8, 1, Real.log 2, 2, 1⟩

lemma recordValue_histW : recordValue histW 0 = some histW1 := by
  rw [recordValue_eq_some histW hasShape_histW (by norm_num) (by norm_num)
    (by norm_num) 0]
  have hb : binIndex histW 0 = 0 := by
    unfold binIndex
    rw [if_neg (by norm_num [histW]), if_pos (by norm_num [histW])]
  rw [hb]
  have : (1 : ℕ) % U64 = 1 := Nat.mod_eq_of_lt (by norm_num [U64])
  simp only [Int.toNat_zero]
  norm_num [histW, histW1, this]
  rfl

/-- C8 witness: recording into a concrete live histogram preserves the bin
count. -/
theorem histogram_bin_count_invariant_w :
    recordValue histW 0 = some histW1 ∧ histW1.bins.length = histW.bins.length :=
  ⟨recordValue_histW,
   histogram_bin_count_invariant.2.1 histW 0 histW1 recordValue_histW⟩

/-- The bin-selection rule exactly as the specification words it (stated with
the construction parameters `startValue`/`commonRatio`; the code computes with
the stored `scaleFactor`/`ratioLog`). -/
noncomputable def specBinIndex (M S R : ℝ) (nbins : ℕ) (v : ℕ) : ℕ :=
  if M < (v : ℝ) then nbins - 1
  else if (v : ℝ) ≤ S then 0
  else (⌈Real.log ((v : ℝ) / S) / Real.log R⌉).toNat

lemma binIndex_toNat_spec {M S R : ℝ} (lh : LatencyHistogram)
    (hsh : hasShape lh M S R) (hS : 0 < S) (hSM : S < M) (hR : 1 < R)
    (v : ℕ) :
    (binIndex lh v).toNat = specBinIndex M S R lh.bins.length v := by
  obtain ⟨hM, hSc, _hSt, hRl, _hCr, hLen⟩ := hsh
  have h3 : 3 ≤ lh.bins.length := hLen ▸ three_le_numBins hS hSM hR
  unfold binIndex specBinIndex
  rw [hM, hSc, hRl]
  by_cases h1 : M < (v : ℝ)
  · rw [if_pos h1, if_pos h1]
    omega
  · rw [if_neg h1, if_neg h1]
    by_cases h2 : (v : ℝ) ≤ S
    · rw [if_pos h2, if_pos h2]
      rfl
    · rw [if_neg h2, if_neg h2]

/-- C4: for every live histogram of a valid shape and every value `v`,
`RecordValue(v)` increments (as a wrapping `uint64` add) exactly the bin the
specification's rule selects — the last bin when `v > maxValue`, bin `0` when
`v ≤ startValue`, and `ceil(log(v/startValue)/log(commonRatio))` otherwise —
and leaves every other bin unchanged. -/
theorem recordValue_increments_one_bin {M S R : ℝ} (lh : LatencyHistogram)
    (hsh : hasShape lh M S R) (hS : 0 < S) (hSM : S < M) (hR : 1 < R)
    (v : ℕ) :
    ∃ lh', recordValue lh v = some lh' ∧
      lh'.bins.getD (specBinIndex M S R lh.bins.length v) 0 =
        (lh.bins.getD (specBinIndex M S R lh.bins.length v) 0 + 1) % U64 ∧
      ∀ j, j ≠ specBinIndex M S R lh.bins.length v →
        lh'.bins.getD j 0 = lh.bins.getD j 0 := by
  refine ⟨_, recordValue_eq_some lh hsh hS hSM hR v, ?_, ?_⟩
  · rw [← binIndex_toNat_spec lh hsh hS hSM hR v]
    exact getD_set_self _ _ _ (binIndex_bounds lh hsh hS hSM hR v).2.1
  · intro j hj
    rw [← binIndex_toNat_spec lh hsh hS hSM hR v] at hj
    exact getD_set_ne _ _ _ _ hj

/-- C4 witness: the rule instantiated at the concrete live histogram `histW`
and the value `5`. -/
theorem recordValue_increments_one_bin_w :
    hasShape histW 8 1 2 ∧ (0 : ℝ) < 1 ∧ (1 : ℝ) < 8 ∧ (1 : ℝ) < 2 ∧
    ∃ lh', recordValue histW 5 = some lh' ∧
      lh'.bins.getD (specBinIndex 8 1 2 histW.bins.length 5) 0 =
        (histW.bins.getD (specBinIndex 8 1 2 histW.bins.length 5) 0 + 1) % U64 ∧
      ∀ j, j ≠ specBinIndex 8 1 2 histW.bins.length 5 →
        lh'.bins.getD j 0 = histW.bins.getD j 0 :=
  ⟨hasShape_histW, by norm_num, by norm_num, by norm_num,
   recordValue_increments_one_bin histW hasShape_histW (by norm_num)
     (by norm_num) (by norm_num) 5⟩

/-- C10: for every histogram of a valid shape (in particular the fixed
recorder shape `2000000/1000/1.5`) and every input value, the bin index
computed by `RecordValue` lies within `[0, bins.length - 1]` — so the bin
array access never panics — and for values not exceeding `maxValue` it is
strictly below the last index, so the last bin counts only overflow
values. -/
theorem recordValue_index_in_bounds {M S R : ℝ} (lh : LatencyHistogram)
    (hsh : hasShape lh M S R) (hS : 0 < S) (hSM : S < M) (hR : 1 < R)
    (v : ℕ) :
    (recordValue lh v).isSome = true ∧ 0 ≤ binIndex lh v ∧
      (binIndex lh v).toNat < lh.bins.length ∧
      ((v : ℝ) ≤ M → (binIndex lh v).toNat < lh.bins.length - 1) := by
  obtain ⟨h0, h1, h2⟩ := binIndex_bounds lh hsh hS hSM hR v
  exact ⟨by rw [recordValue_eq_some lh hsh hS hSM hR v]; rfl, h0, h1, h2⟩

/-- C10 witness: bounds instantiated at `histW` and the value `3`. -/
theorem recordValue_index_in_bounds_w :
    hasShape histW 8 1 2 ∧ (0 : ℝ) < 1 ∧ (1 : ℝ) < 8 ∧ (1 : ℝ) < 2 ∧
    ((recordValue histW 3).isSome = true ∧ 0 ≤ binIndex histW 3 ∧
      (binIndex histW 3).toNat < histW.bins.length ∧
      ((3 : ℕ) ≤ (8 : ℝ) → (binIndex histW 3).toNat < histW.bins.length - 1)) :=
  ⟨hasShape_histW, by norm_num, by norm_num, by norm_num,
   recordValue_index_in_bounds histW hasShape_histW (by norm_num)
     (by norm_num) (by norm_num) 3⟩

/-! ### Helper lemmas for the interval-count claim -/

lemma getD_le_sum : ∀ (l : List ℕ) (i : ℕ), l.getD i 0 ≤ l.sum
  | [], _ => Nat.le_refl 0
  | x :: xs, 0 => by simp
  | _ :: xs, i + 1 => le_trans (getD_le_sum xs i) (by simp)

lemma sum_set_getD_succ : ∀ (l : List ℕ) (i : ℕ), i < l.length →
    (l.set i (l.getD i 0 + 1)).sum = l.sum + 1
  | x :: xs, 0, _ => by simp [List.sum_cons]; omega
  | x :: xs, i + 1, h => by
    have ih := sum_set_getD_succ xs i (by simpa using h)
    show (x :: xs.set i (xs.getD i 0 + 1)).sum = (x :: xs).sum + 1
    simp only [List.sum_cons, ih]
    omega

lemma recordValue_sum {lh : LatencyHistogram} {v : ℕ}
    {lh' : LatencyHistogram} (h : recordValue lh v = some lh')
    (hov : lh.bins.sum + 1 < U64) :
    lh'.bins.sum = lh.bins.sum + 1 := by
  unfold recordValue at h
  split at h
  case isTrue hc =>
    cases h
    have hgd : lh.bins.getD (binIndex lh v).toNat 0 + 1 < U64 :=
      lt_of_le_of_lt (Nat.add_le_add_right (getD_le_sum _ _) 1) hov
    show (lh.bins.set (binIndex lh v).toNat
      ((lh.bins.getD (binIndex lh v).toNat 0 + 1) % U64)).sum = lh.bins.sum + 1
    rw [Nat.mod_eq_of_lt hgd]
    exact sum_set_getD_succ lh.bins _ hc.2
  case isFalse => cases h

lemma recordMany_sum : ∀ (vs : List ℕ) (lh lh' : LatencyHistogram),
    recordMany lh vs = some lh' → lh.bins.sum + vs.length < U64 →
    lh'.bins.sum = lh.bins.sum + vs.length ∧
      lh'.bins.length = lh.bins.length
  | [], lh, lh', h, _ => by
    cases h
    simp
  | v :: vs, lh, lh', h, hov => by
    simp only [recordMany] at h
    cases hrv : recordValue lh v with
    | none => rw [hrv] at h; cases h
    | some lh1 =>
      rw [hrv] at h
      simp only [Option.some_bind] at h
      have hlen := List.length_cons v vs ▸ hov
      have h1 : lh1.bins.sum = lh.bins.sum + 1 :=
        recordValue_sum hrv (by simp only [List.length_cons] at hov; omega)
      have h2 := recordMany_sum vs lh1 lh' h
        (by rw [h1]; simp only [List.length_cons] at hov; omega)
      refine ⟨?_, h2.2.trans (recordValue_length hrv)⟩
      rw [h2.1, h1]
      simp only [List.length_cons]
      omega

lemma cumsumU64_chain : ∀ (l : List ℕ) (acc : ℕ), acc + l.sum < U64 →
    List.Chain (· ≤ ·) acc (cumsumU64 l acc)
  | [], _, _ => List.Chain.nil
  | b :: xs, acc, h => by
    have hab : acc + b < U64 := by
      simp only [List.sum_cons] at h
      omega
    show List.Chain _ acc (((acc + b) % U64) :: cumsumU64 xs ((acc + b) % U64))
    rw [Nat.mod_eq_of_lt hab]
    exact List.Chain.cons (Nat.le_add_right acc b)
      (cumsumU64_chain xs (acc + b)
        (by simp only [List.sum_cons] at h; omega))

lemma cumsumU64_last : ∀ (l : List ℕ) (acc : ℕ), l ≠ [] →
    acc + l.sum < U64 →
    (cumsumU64 l acc).getD (l.length - 1) 0 = acc + l.sum
  | [], _, hne, _ => absurd rfl hne
  | [b], acc, _, h => by
    show ((acc + b) % U64 :: []).getD 0 0 = _
    simp only [List.getD_cons_zero, List.sum_cons, List.sum_nil, Nat.add_zero]
    exact Nat.mod_eq_of_lt (by simpa using h)
  | b :: c :: xs, acc, _, h => by
    have hab : acc + b < U64 := by
      simp only [List.sum_cons] at h
      omega
    have ih := cumsumU64_last (c :: xs) (acc + b) (by simp)
      (by simp only [List.sum_cons] at h ⊢; omega)
    show ((acc + b) % U64 :: cumsumU64 (c :: xs) ((acc + b) % U64)).getD
      ((b :: c :: xs).length - 1) 0 = _
    rw [Nat.mod_eq_of_lt hab]
    simp only [List.length_cons] at ih ⊢
    rw [show xs.length + 1 + 1 - 1 = (xs.length + 1 - 1) + 1 by omega,
      List.getD_cons_succ, ih]
    simp only [List.sum_cons]
    omega

lemma cumsumU64_replicate_zero : ∀ (n acc : ℕ), acc < U64 →
    cumsumU64 (List.replicate n 0) acc = List.replicate n acc
  | 0, _, _ => rfl
  | n + 1, acc, h => by
    show ((acc + 0) % U64) :: cumsumU64 (List.replicate n 0) ((acc + 0) % U64) = _
    rw [Nat.add_zero, Nat.mod_eq_of_lt h, cumsumU64_replicate_zero n acc h]
    rfl

lemma getD_replicate_zero : ∀ (n i : ℕ), (List.replicate n (0 : ℕ)).getD i 0 = 0
  | 0, _ => rfl
  | _ + 1, 0 => rfl
  | n + 1, i + 1 => getD_replicate_zero n i

lemma getD_replicate_lt : ∀ (n i a : ℕ), i < n →
    (List.replicate n a).getD i 0 = a
  | 0, _, _, h => absurd h (by omega)
  | _ + 1, 0, _, _ => rfl
  | n + 1, i + 1, a, h => getD_replicate_lt n i a (by omega)

/-- C6: for any sequence of `N` values (`N` within the `uint64` range)
recorded into a histogram whose bins start all zero (construction or the
previous reset), `AggregateAndReset` produces a snapshot whose bins are
non-decreasing with `TotalCount()` (the last entry) equal to `N`, and an
immediately following second `AggregateAndReset` yields a snapshot with
`TotalCount() = 0`. -/
theorem aggregateAndReset_counts (vs : List ℕ) (lh lh' : LatencyHistogram)
    (hz : lh.bins.sum = 0) (hrec : recordMany lh vs = some lh')
    (hN : vs.length < U64) :
    List.Chain' (· ≤ ·) (aggregateAndReset lh').1.bins ∧
      totalCount (aggregateAndReset lh').1 = vs.length ∧
      totalCount (aggregateAndReset (aggregateAndReset lh').2).1 = 0 := by
  have hsum := recordMany_sum vs lh lh' hrec (by omega)
  have hsum' : lh'.bins.sum = vs.length := by omega
  refine ⟨?_, ?_, ?_⟩
  · have hc := cumsumU64_chain lh'.bins 0 (by omega)
    exact (show List.Chain' (· ≤ ·) (0 :: cumsumU64 lh'.bins 0) from hc).tail
  · by_cases hne : lh'.bins = []
    · have : vs.length = 0 := by
        rw [← hsum', hne]
        rfl
      simp [totalCount, aggregateAndReset, hne, cumsumU64, this]
    · unfold totalCount aggregateAndReset
      simp only
      rw [cumsumU64_length]
      rw [cumsumU64_last lh'.bins 0 hne (by omega)]
      omega
  · unfold totalCount aggregateAndReset
    simp only
    rw [cumsumU64_replicate_zero _ 0 (by norm_num [U64])]
    exact getD_replicate_zero _ _

lemma recordMany_histW : recordMany histW [0] = some histW1 := by
  simp only [recordMany, recordValue_histW, Option.some_bind]

/-- C6 witness: one value recorded into the concrete live histogram
`histW`. -/
theorem aggregateAndReset_counts_w :
    histW.bins.sum = 0 ∧ recordMany histW [0] = some histW1 ∧
    ([0] : List ℕ).length < U64 ∧
    (List.Chain' (· ≤ ·) (aggregateAndReset histW1).1.bins ∧
      totalCount (aggregateAndReset histW1).1 = ([0] : List ℕ).length ∧
      totalCount (aggregateAndReset (aggregateAndReset histW1).2).1 = 0) :=
  ⟨by simp [histW], recordMany_histW, by norm_num [U64],
   aggregateAndReset_counts [0] histW histW1 (by simp [histW]) recordMany_histW
     (by norm_num [U64])⟩

/-! ### Helper lemmas for the percentile scan -/

lemma binScan_some_of : ∀ (l : List ℕ) (t k i : ℕ), i < l.length →
    t ≤ l.getD i 0 → (∀ j, j < i → l.getD j 0 < t) →
    binScan l t k = some (k + i)
  | [], _, _, i, hi, _, _ => absurd hi (by simp)
  | b :: _, t, k, 0, _, hq, _ => by
    show (if t ≤ b then some k else _) = some (k + 0)
    rw [if_pos (by simpa using hq), Nat.add_zero]
  | b :: xs, t, k, i + 1, hi, hq, hfirst => by
    have hb : b < t := by simpa using hfirst 0 (by omega)
    show (if t ≤ b then some k else binScan xs t (k + 1)) = some (k + (i + 1))
    rw [if_neg (by omega)]
    rw [binScan_some_of xs t (k + 1) i (by simpa using hi) (by simpa using hq)
      (fun j hj => by simpa using hfirst (j + 1) (by omega))]
    exact congrArg some (by omega)

lemma binScan_total : ∀ (l : List ℕ) (t k : ℕ),
    (∃ i, i < l.length ∧ t ≤ l.getD i 0) →
    ∃ i, i < l.length ∧ t ≤ l.getD i 0 ∧ (∀ j, j < i → l.getD j 0 < t) ∧
      binScan l t k = some (k + i)
  | [], _, _, hex => absurd hex (by simp)
  | b :: xs, t, k, hex => by
    by_cases hb : t ≤ b
    · refine ⟨0, by simp, by simpa using hb, fun j hj => absurd hj (by omega), ?_⟩
      show (if t ≤ b then some k else _) = some (k + 0)
      rw [if_pos hb, Nat.add_zero]
    · have hex' : ∃ i, i < xs.length ∧ t ≤ xs.getD i 0 := by
        obtain ⟨i, hi, hq⟩ := hex
        match i with
        | 0 => exact absurd (by simpa using hq) hb
        | i + 1 => exact ⟨i, by simpa using hi, by simpa using hq⟩
      obtain ⟨i0, hi0, hq0, hf0, hscan⟩ := binScan_total xs t (k + 1) hex'
      refine ⟨i0 + 1, by simpa using hi0, by simpa using hq0, ?_, ?_⟩
      · intro j hj
        match j with
        | 0 => simpa using not_le.1 hb
        | j + 1 => simpa using hf0 j (by omega)
      · show (if t ≤ b then some k else binScan xs t (k + 1)) = some (k + (i0 + 1))
        rw [if_neg hb, hscan]
        exact congrArg some (by omega)

lemma gt_fmt_ne_sentinel (x : String) : ("> " ++ x) ≠ "0.0" := by
  intro h
  have h2 := congrArg String.data h
  rw [String.data_append] at h2
  simp at h2

lemma le_fmt_ne_sentinel (x : String) : ("<= " ++ x) ≠ "0.0" := by
  intro h
  have h2 := congrArg String.data h
  rw [String.data_append] at h2
  simp at h2

/-- C9: on any snapshot with a nonempty bin array (every snapshot
`AggregateAndReset` produces from a constructed histogram is such, and its
last entry is `TotalCount()`), for every percentile in `[0, 100]` the scan of
`BinAtPercentile` finds a qualifying bin, so the defensive sentinel branch
returning `"0.0"` is unreachable and the result is one of the bound
formats. -/
theorem binAtPercentile_no_sentinel (s : CumulativeLatencyHistogram) (p : ℝ)
    (hne : s.bins ≠ []) (_hp0 : 0 ≤ p) (hp1 : p ≤ 100) :
    ∃ i, i < s.bins.length ∧
      binScan s.bins ((⌈(p / 100) * (totalCount s : ℝ)⌉).toNat) 0 = some i ∧
      binAtPercentile s p =
        (if i = s.bins.length - 1 then
          "> " ++ fmtFixed2 (s.commonRatio ^ ((i : ℤ) - 1) * s.startValue)
        else "<= " ++ fmtFixed2 (s.commonRatio ^ (i : ℤ) * s.startValue)) ∧
      binAtPercentile s p ≠ "0.0" := by
  have hlen : 0 < s.bins.length := List.length_pos.2 hne
  have hmul : (p / 100) * (totalCount s : ℝ) ≤ (totalCount s : ℝ) :=
    mul_le_of_le_one_left (by positivity) (by rw [div_le_one] <;> norm_num [hp1])
  have hceil : (⌈(p / 100) * (totalCount s : ℝ)⌉).toNat ≤ totalCount s := by
    have h2 : ⌈(p / 100) * (totalCount s : ℝ)⌉ ≤ (totalCount s : ℤ) :=
      Int.ceil_le.2 (by exact_mod_cast hmul)
    omega
  have hex : ∃ i, i < s.bins.length ∧
      (⌈(p / 100) * (totalCount s : ℝ)⌉).toNat ≤ s.bins.getD i 0 :=
    ⟨s.bins.length - 1, by omega, hceil⟩
  obtain ⟨i, hi, hq, _hf, hscan⟩ :=
    binScan_total s.bins ((⌈(p / 100) * (totalCount s : ℝ)⌉).toNat) 0 hex
  rw [Nat.zero_add] at hscan
  have hval : binAtPercentile s p =
      (if i = s.bins.length - 1 then
        "> " ++ fmtFixed2 (s.commonRatio ^ ((i : ℤ) - 1) * s.startValue)
      else "<= " ++ fmtFixed2 (s.commonRatio ^ (i : ℤ) * s.startValue)) := by
    unfold binAtPercentile
    rw [hscan]
  refine ⟨i, hi, hscan, hval, ?_⟩
  rw [hval]
  by_cases hlast : i = s.bins.length - 1
  · rw [if_pos hlast]
    exact gt_fmt_ne_sentinel _
  · rw [if_neg hlast]
    exact le_fmt_ne_sentinel _

/-- C9 witness: a concrete nonempty snapshot at percentile `50`. -/
theorem binAtPercentile_no_sentinel_w :
    (⟨[0, 2], 1.5, 1000⟩ : CumulativeLatencyHistogram).bins ≠ [] ∧
    (0 : ℝ) ≤ 50 ∧ (50 : ℝ) ≤ 100 ∧
    ∃ i, i < (⟨[0, 2], 1.5, 1000⟩ : CumulativeLatencyHistogram).bins.length ∧
      binScan (⟨[0, 2], 1.5, 1000⟩ : CumulativeLatencyHistogram).bins
        ((⌈((50 : ℝ) / 100) *
          (totalCount (⟨[0, 2], 1.5, 1000⟩ : CumulativeLatencyHistogram) : ℝ)⌉).toNat)
        0 = some i ∧
      binAtPercentile (⟨[0, 2], 1.5, 1000⟩ : CumulativeLatencyHistogram) 50 =
        (if i = (⟨[0, 2], 1.5, 1000⟩ : CumulativeLatencyHistogram).bins.length - 1 then
          "> " ++ fmtFixed2 ((1.5 : ℝ) ^ ((i : ℤ) - 1) * 1000)
        else "<= " ++ fmtFixed2 ((1.5 : ℝ) ^ (i : ℤ) * 1000)) ∧
      binAtPercentile (⟨[0, 2], 1.5, 1000⟩ : CumulativeLatencyHistogram) 50 ≠ "0.0" :=
  ⟨by simp, by norm_num, by norm_num,
   binAtPercentile_no_sentinel ⟨[0, 2], 1.5, 1000⟩ 50 (by simp) (by norm_num)
     (by norm_num)⟩

/-! ### Helper lemmas for the percentile-format claim and its concrete
example from the specification -/

lemma binAtPercentile_eq_of_first (s : CumulativeLatencyHistogram) (p : ℝ)
    (i : ℕ) (hi : i < s.bins.length)
    (hq : (⌈(p / 100) * (totalCount s : ℝ)⌉).toNat ≤ s.bins.getD i 0)
    (hf : ∀ j, j < i →
      s.bins.getD j 0 < (⌈(p / 100) * (totalCount s : ℝ)⌉).toNat) :
    binAtPercentile s p =
      if i = s.bins.length - 1 then
        "> " ++ fmtFixed2 (s.commonRatio ^ ((i : ℤ) - 1) * s.startValue)
      else "<= " ++ fmtFixed2 (s.commonRatio ^ (i : ℤ) * s.startValue) := by
  unfold binAtPercentile
  have hscan := binScan_some_of s.bins
    ((⌈(p / 100) * (totalCount s : ℝ)⌉).toNat) 0 i hi hq hf
  rw [Nat.zero_add] at hscan
  rw [hscan]

lemma fmtFixed2_1000 : fmtFixed2 1000 = "1000.00" := by
  have h1 : round ((1000 : ℝ) * 100) = 100000 := by norm_num
  simp only [fmtFixed2, h1]
  norm_num
  rfl

lemma binIndex_le_start {M S R : ℝ} (lh : LatencyHistogram) (v : ℕ)
    (hsh : hasShape lh M S R) (hnm : ¬ (M < (v : ℝ))) (hle : (v : ℝ) ≤ S) :
    binIndex lh v = 0 := by
  obtain ⟨hM, hSc, _, _, _, _⟩ := hsh
  unfold binIndex
  rw [hM, hSc, if_neg hnm, if_pos hle]

/-- The recorder-shape histogram of the specification's worked example. -/
noncomputable def lhFixed : LatencyHistogram :=
  newLatencyHistogram 2000000 1000 1.5

lemma nbFixed_ge : 3 ≤ numBins 2000000 1000 1.5 :=
  three_le_numBins (by norm_num) (by norm_num) (by norm_num)

lemma recordValue_lhFixed :
    recordValue lhFixed 1000 = some { lhFixed with bins := lhFixed.bins.set 0 1 } := by
  have h0 : binIndex lhFixed 1000 = 0 :=
    binIndex_le_start lhFixed 1000 (hasShape_new 2000000 1000 1.5)
      (by push_cast; norm_num) (by push_cast; norm_num)
  rw [recordValue_eq_some lhFixed (hasShape_new 2000000 1000 1.5) (by norm_num)
    (by norm_num) (by norm_num) 1000, h0]
  rw [show ((0 : ℤ)).toNat = 0 from rfl,
    show lhFixed.bins.getD 0 0 = 0 from getD_replicate_zero _ _,
    show (0 + 1) % U64 = 1 by norm_num [U64]]

lemma snapshot_lhFixed :
    (aggregateAndReset { lhFixed with bins := lhFixed.bins.set 0 1 }).1.bins =
      List.replicate (numBins 2000000 1000 1.5) 1 := by
  obtain ⟨m, hm⟩ : ∃ m, numBins 2000000 1000 1.5 = m + 1 :=
    ⟨numBins 2000000 1000 1.5 - 1, by have := nbFixed_ge; omega⟩
  have hbins : lhFixed.bins = List.replicate (m + 1) 0 := by
    rw [← hm]
    rfl
  show cumsumU64 (lhFixed.bins.set 0 1) 0 = _
  rw [hbins, List.replicate_succ]
  show ((0 + 1) % U64) :: cumsumU64 (List.replicate m 0) ((0 + 1) % U64) = _
  rw [show (0 + 1) % U64 = 1 by norm_num [U64],
    cumsumU64_replicate_zero m 1 (by norm_num [U64]), hm, List.replicate_succ]

lemma totalCount_snapshot_lhFixed :
    totalCount (aggregateAndReset { lhFixed with bins := lhFixed.bins.set 0 1 }).1 = 1 := by
  unfold totalCount
  rw [snapshot_lhFixed, List.length_replicate]
  exact getD_replicate_lt _ _ _ (by have := nbFixed_ge; omega)

/-- C5: `BinAtPercentile(p)` takes the threshold
`ceil((p/100) * TotalCount())` and returns, for the first bin whose
cumulative value reaches it, the `"> "` bound (ratio power `index-1`) when
that bin is the last bin and the `"<= "` bound (ratio power `index`)
otherwise, both to two decimal places; in particular, after recording the
single value `1000` into a histogram of shape `(2000000, 1000, 1.5)` the
snapshot has `TotalCount() = 1` and `BinAtPercentile(50.0) = "<= 1000.00"`. -/
theorem binAtPercentile_bound_format :
    (∀ (s : CumulativeLatencyHistogram) (p : ℝ) (i : ℕ),
      i < s.bins.length →
      (⌈(p / 100) * (totalCount s : ℝ)⌉).toNat ≤ s.bins.getD i 0 →
      (∀ j, j < i →
        s.bins.getD j 0 < (⌈(p / 100) * (totalCount s : ℝ)⌉).toNat) →
      binAtPercentile s p =
        if i = s.bins.length - 1 then
          "> " ++ fmtFixed2 (s.commonRatio ^ ((i : ℤ) - 1) * s.startValue)
        else "<= " ++ fmtFixed2 (s.commonRatio ^ (i : ℤ) * s.startValue)) ∧
    (∃ lh', recordValue (newLatencyHistogram 2000000 1000 1.5) 1000 = some lh' ∧
      totalCount (aggregateAndReset lh').1 = 1 ∧
      binAtPercentile (aggregateAndReset lh').1 50 = "<= 1000.00") := by
  refine ⟨binAtPercentile_eq_of_first, ?_⟩
  refine ⟨{ lhFixed with bins := lhFixed.bins.set 0 1 }, recordValue_lhFixed,
    totalCount_snapshot_lhFixed, ?_⟩
  have hnb := nbFixed_ge
  have hlen : (aggregateAndReset
      { lhFixed with bins := lhFixed.bins.set 0 1 }).1.bins.length =
      numBins 2000000 1000 1.5 := by
    rw [snapshot_lhFixed, List.length_replicate]
  have hth : ((⌈((50 : ℝ) / 100) *
      ((totalCount (aggregateAndReset
        { lhFixed with bins := lhFixed.bins.set 0 1 }).1 : ℕ) : ℝ)⌉).toNat) = 1 := by
    rw [totalCount_snapshot_lhFixed,
      show ((50 : ℝ) / 100) * ((1 : ℕ) : ℝ) = 1 / 2 by push_cast; ring,
      show ⌈(1 / 2 : ℝ)⌉ = 1 by norm_num [Int.ceil_eq_iff]]
    rfl
  have h := binAtPercentile_eq_of_first
    (aggregateAndReset { lhFixed with bins := lhFixed.bins.set 0 1 }).1 50 0
    (by rw [hlen]; omega)
    (by rw [hth, snapshot_lhFixed, getD_replicate_lt _ _ _ (by omega)])
    (fun j hj => absurd hj (by omega))
  rw [h, if_neg (by rw [hlen]; omega)]
  have hcr : (aggregateAndReset
      { lhFixed with bins := lhFixed.bins.set 0 1 }).1.commonRatio = 1.5 := rfl
  have hsv : (aggregateAndReset
      { lhFixed with bins := lhFixed.bins.set 0 1 }).1.startValue = 1000 := rfl
  rw [hcr, hsv, show (((0 : ℕ) : ℤ)) = 0 from rfl, zpow_zero, one_mul,
    fmtFixed2_1000]
  rfl

/-- C5 witness: the first-qualifying-bin characterisation instantiated at a
concrete snapshot and percentile. -/
theorem binAtPercentile_bound_format_w :
    (1 < (⟨[0, 2], 1.5, 1000⟩ : CumulativeLatencyHistogram).bins.length) ∧
    ((⌈((50 : ℝ) / 100) *
      (totalCount (⟨[0, 2], 1.5, 1000⟩ : CumulativeLatencyHistogram) : ℝ)⌉).toNat ≤
      (⟨[0, 2], 1.5, 1000⟩ : CumulativeLatencyHistogram).bins.getD 1 0) ∧
    binAtPercentile (⟨[0, 2], 1.5, 1000⟩ : CumulativeLatencyHistogram) 50 =
      (if 1 = (⟨[0, 2], 1.5, 1000⟩ : CumulativeLatencyHistogram).bins.length - 1 then
        "> " ++ fmtFixed2 ((1.5 : ℝ) ^ ((1 : ℤ) - 1) * 1000)
      else "<= " ++ fmtFixed2 ((1.5 : ℝ) ^ ((1 : ℕ) : ℤ) * 1000)) := by
  have hth : ((⌈((50 : ℝ) / 100) *
      (totalCount (⟨[0, 2], 1.5, 1000⟩ : CumulativeLatencyHistogram) : ℝ)⌉).toNat) = 1 := by
    show ((⌈((50 : ℝ) / 100) * ((2 : ℕ) : ℝ)⌉).toNat) = 1
    push_cast
    norm_num [Int.ceil_eq_iff]
  refine ⟨by simp, by rw [hth]; simp, ?_⟩
  have h := binAtPercentile_bound_format.1 ⟨[0, 2], 1.5, 1000⟩ 50 1 (by simp)
    (by rw [hth]; simp)
    (fun j hj => by
      match j with
      | 0 => rw [hth]; simp
      | j + 1 => omega)
  rw [h]
  rfl

/-! ### Helper lemmas about association lists, for the recorder-group
claims -/

lemma lookupA_mem {α : Type} : ∀ (l : List (String × α)) (k : String) (v : α),
    lookupA l k = some v → (k, v) ∈ l
  | [], _, _, h => by cases h
  | (k', v') :: rest, k, v, h => by
    simp only [lookupA] at h
    by_cases hk : k' = k
    · rw [if_pos hk] at h
      cases h
      subst hk
      exact List.mem_cons_self _ _
    · rw [if_neg hk] at h
      exact List.mem_cons_of_mem _ (lookupA_mem rest k v h)

lemma lookupA_none_not_mem {α : Type} : ∀ (l : List (String × α)) (k : String),
    lookupA l k = none → k ∉ l.map Prod.fst
  | [], _, _ => by simp
  | (k', v') :: rest, k, h => by
    simp only [lookupA] at h
    by_cases hk : k' = k
    · rw [if_pos hk] at h
      cases h
    · rw [if_neg hk] at h
      simp only [List.map_cons, List.mem_cons, not_or]
      exact ⟨fun hkk => hk hkk.symm, lookupA_none_not_mem rest k h⟩

lemma lookupA_updateA_self {α : Type} :
    ∀ (l : List (String × α)) (k : String) (g g' : α),
    lookupA l k = some g → lookupA (updateA l k g') k = some g'
  | [], _, _, _, h => by cases h
  | (k', v') :: rest, k, g, g', h => by
    simp only [lookupA] at h
    simp only [updateA]
    by_cases hk : k' = k
    · rw [if_pos hk]
      simp only [lookupA]
      rw [if_pos hk]
    · rw [if_neg hk] at h
      rw [if_neg hk]
      simp only [lookupA]
      rw [if_neg hk]
      exact lookupA_updateA_self rest k g g' h

lemma mem_updateA {α : Type} :
    ∀ (l : List (String × α)) (k : String) (g : α) (p : String × α),
    p ∈ updateA l k g → (p.1 = k ∧ p.2 = g) ∨ p ∈ l
  | [], _, _, _, hp => by simp [updateA] at hp
  | (k', v') :: rest, k, g, p, hp => by
    simp only [updateA, List.mem_cons] at hp
    rcases hp with hp | hp
    · by_cases hk : k' = k
      · rw [if_pos hk] at hp
        exact Or.inl (by rw [hp]; exact ⟨hk, rfl⟩)
      · rw [if_neg hk] at hp
        exact Or.inr (by rw [hp]; exact List.mem_cons_self _ _)
    · rcases mem_updateA rest k g p hp with h | h
      · exact Or.inl h
      · exact Or.inr (List.mem_cons_of_mem _ h)

/-- The invariant of C7: within every recorder group, at most one recorder
per peer label (no duplicate keys). -/
def meterNodup (am : AggregatingMeter) : Prop :=
  ∀ g ∈ am.valueRecorderGroups, (g.2.recorders.map Prod.fst).Nodup

/-- C7: each recorder group holds at most one recorder per peer label (the
no-duplicate-keys invariant is preserved by `ValueRecorder`), and a second
`ValueRecorder` call with the same name and tags resolves to the identical
reference returned by the first call while leaving the meter unchanged — no
duplicate histogram is created. -/
theorem valueRecorder_get_or_create (am : AggregatingMeter) (name : String)
    (tags : List (String × String)) (hnd : meterNodup am) :
    meterNodup (valueRecorder am name tags).2 ∧
    valueRecorder (valueRecorder am name tags).2 name tags =
      ((valueRecorder am name tags).1, (valueRecorder am name tags).2) := by
  by_cases h1 : name = meterNameResponses
  · subst h1
    have hcond : ¬ (meterNameResponses ≠ meterNameResponses) := fun h => h rfl
    cases hsv : lookupA tags meterAttribServiceKey with
    | none =>
      simp only [valueRecorder, if_neg hcond, hsv]
      exact ⟨hnd, trivial⟩
    | some service =>
      cases hgr : lookupA am.valueRecorderGroups service with
      | none =>
        simp only [valueRecorder, if_neg hcond, hsv, hgr]
        exact ⟨hnd, trivial⟩
      | some group =>
        cases hpn : lookupA tags meterAttribPeerName with
        | none =>
          simp only [valueRecorder, if_neg hcond, hsv, hgr, hpn]
          exact ⟨hnd, trivial⟩
        | some peer =>
          cases hrec : lookupA group.recorders peer with
          | some r =>
            simp only [valueRecorder, if_neg hcond, hsv, hgr, hpn, hrec]
            exact ⟨hnd, trivial⟩
          | none =>
            simp only [valueRecorder, if_neg hcond, hsv, hgr, hpn, hrec]
            constructor
            · intro g hg
              rcases mem_updateA _ _ _ g hg with ⟨_, hgv⟩ | hgmem
              · rw [hgv]
                simp only [List.map_cons]
                exact List.nodup_cons.2
                  ⟨lookupA_none_not_mem _ _ hrec,
                   hnd (service, group) (lookupA_mem _ _ _ hgr)⟩
              · exact hnd g hgmem
            · rw [lookupA_updateA_self _ _ _ _ hgr]
              simp [lookupA]
  · have hcond : name ≠ meterNameResponses := h1
    simp only [valueRecorder, if_pos hcond]
    exact ⟨hnd, trivial⟩

/-- The concrete tag map used by meter witnesses: the Query service and one
peer label. -/
def tagsW : List (String × String) :=
  [(meterAttribServiceKey, meterValueServiceQuery),
   (meterAttribPeerName, "node1")]

lemma meterNodup_fresh : meterNodup (newAggregatingMeter 0) := by
  intro g hg
  simp only [newAggregatingMeter, List.mem_cons, List.not_mem_nil, or_false]
    at hg
  rcases hg with h | h | h | h | h | h <;> (rw [h]; simp)

/-- C7 witness: the idempotence of get-or-create at the fresh meter with a
concrete service and peer. -/
theorem valueRecorder_get_or_create_w :
    meterNodup (newAggregatingMeter 0) ∧
    (meterNodup (valueRecorder (newAggregatingMeter 0) meterNameResponses
        tagsW).2 ∧
      valueRecorder (valueRecorder (newAggregatingMeter 0) meterNameResponses
          tagsW).2 meterNameResponses tagsW =
        ((valueRecorder (newAggregatingMeter 0) meterNameResponses tagsW).1,
         (valueRecorder (newAggregatingMeter 0) meterNameResponses tagsW).2)) :=
  ⟨meterNodup_fresh,
   valueRecorder_get_or_create (newAggregatingMeter 0) meterNameResponses
     tagsW meterNodup_fresh⟩

/-! ### The emitted service keys -/

lemma services_keys_filter :
    ∀ l : List (String × AggregatingMeterGroup),
    (l.filterMap fun g => (generateOutputStep g).1).map Prod.fst =
      (l.filter fun g => !g.2.recorders.isEmpty).map Prod.fst
  | [] => rfl
  | g :: rest => by
    by_cases he : g.2.recorders.isEmpty
    · have h1 : (generateOutputStep g).1 = none := by
        simp only [generateOutputStep]
        rw [if_pos (List.isEmpty_iff_length_eq_zero.1 he)]
      simp [List.filterMap_cons, List.filter_cons, he, h1,
        services_keys_filter rest]
    · have hne : g.2.recorders.length ≠ 0 :=
        fun h => he (List.isEmpty_iff_length_eq_zero.2 h)
      have h1 : (generateOutputStep g).1 = some (g.1, g.2.recorders.map
          fun pr => (pr.2.peerName, (getAndResetValues pr.2).1)) := by
        simp only [generateOutputStep]
        rw [if_neg hne, if_pos (by simp only [List.length_map]; omega)]
      simp [List.filterMap_cons, List.filter_cons, he, h1,
        services_keys_filter rest]

/-- C3 (amended): a service key appears in the emitted output structure iff
the service's group holds at least one recorder — regardless of whether any
value was recorded into those recorders during the interval. -/
theorem generateOutput_service_keys (am : AggregatingMeter) :
    (generateOutput am).1.services.map Prod.fst =
      (am.valueRecorderGroups.filter
        fun g => !g.2.recorders.isEmpty).map Prod.fst :=
  services_keys_filter am.valueRecorderGroups

/-- The meter obtained from the fresh meter by a single `ValueRecorder` call
(which creates a recorder but records nothing). -/
noncomputable def meterW : AggregatingMeter :=
  (valueRecorder (newAggregatingMeter 0) meterNameResponses tagsW).2

/-- The explicit state of `meterW`. -/
noncomputable def meterW_expected : AggregatingMeter :=
  { interval := 600000000000
    valueRecorderGroups :=
      [(meterValueServiceKV, ⟨[]⟩),
       (meterValueServiceViews, ⟨[]⟩),
       (meterValueServiceQuery,
         ⟨[("node1", newAggregatingValueRecorder "node1")]⟩),
       (meterValueServiceSearch, ⟨[]⟩),
       (meterValueServiceAnalytics, ⟨[]⟩),
       (meterValueServiceManagement, ⟨[]⟩)] }

lemma meterW_eq : meterW = meterW_expected := rfl

/-- C3 counterexample: in `meterW` no recorder has recorded any value since
start (every histogram bin is zero), yet the Query service key appears in the
generated output — refuting the claim that a service appears only if some
peer recorded at least one value. -/
theorem generateOutput_service_without_recordings :
    (generateOutput meterW).1.services.map Prod.fst =
      [meterValueServiceQuery] ∧
    ∀ g ∈ meterW.valueRecorderGroups, ∀ r ∈ g.2.recorders,
      r.2.hist.bins.sum = 0 := by
  constructor
  · rfl
  · rw [meterW_eq]
    intro g hg
    simp only [meterW_expected, List.mem_cons, List.not_mem_nil, or_false]
      at hg
    rcases hg with h | h | h | h | h | h <;> subst h <;> intro r hr
    · exact absurd hr (by simp)
    · exact absurd hr (by simp)
    · simp only [List.mem_singleton] at hr
      subst hr
      simp [newAggregatingValueRecorder, newLatencyHistogram]
    · exact absurd hr (by simp)
    · exact absurd hr (by simp)
    · exact absurd hr (by simp)

/-! ### The logger routine's behaviour on a marshalling failure and on an
empty tick -/

/-- A marshaller that always fails (serialization is the one fallible step;
`json.Marshal` itself lives outside the covered sources). -/
def badMarshal : MeterOutput → Except String String := fun _ => .error "boom"

/-- A marshaller that always succeeds with a fixed payload. -/
def okMarshal : MeterOutput → Except String String := fun _ => .ok "x"

/-- C2 (amended): when serialization of a non-empty interval's output fails,
the failure is logged at the diagnostic (debug) level, but the info-level
emission is NOT skipped — `logInfof` still runs with the nil byte slice
(rendering an empty payload) — the loop keeps running, and the meter state is
the post-`generateOutput` state: the destructive reset already happened, so
the next interval is unaffected. -/
theorem tickStep_marshal_failure (marshal : MeterOutput → Except String String)
    (am : AggregatingMeter) (e : String)
    (hne : (generateOutput am).1.services ≠ [])
    (herr : marshal (generateOutput am).1 = .error e) :
    tickStep marshal am =
      { meter := (generateOutput am).2, running := true
        logs := [.debug (marshalFailMsg e), .info (aggregateMsg "")] } := by
  have hsz : outputSize (generateOutput am).1 ≠ 1 := by
    simp only [outputSize]
    intro h
    exact hne (List.length_eq_zero.1 (by omega))
  unfold tickStep
  rw [if_neg hsz, herr]

lemma meterW_services_nonempty : (generateOutput meterW).1.services ≠ [] := by
  rw [meterW_eq]
  intro h
  simpa [generateOutput, meterW_expected, generateOutputStep,
    newAggregatingValueRecorder] using congrArg List.length h

/-- C2 counterexample: on a concrete meter holding one recorder and a
marshaller that fails, the tick still emits an info-level line through the
logging sink — refuting the claim that nothing is emitted for that
interval. -/
theorem tickStep_marshal_failure_cex :
    (tickStep badMarshal meterW).logs =
      [.debug (marshalFailMsg "boom"), .info (aggregateMsg "")] ∧
    LogEvent.info (aggregateMsg "") ∈ (tickStep badMarshal meterW).logs := by
  refine ⟨rfl, ?_⟩
  rw [show (tickStep badMarshal meterW).logs =
    [.debug (marshalFailMsg "boom"), .info (aggregateMsg "")] from rfl]
  simp

/-- C2 witness: the amended behaviour at the concrete meter `meterW` and the
failing marshaller. -/
theorem tickStep_marshal_failure_w :
    (generateOutput meterW).1.services ≠ [] ∧
    badMarshal (generateOutput meterW).1 = .error "boom" ∧
    tickStep badMarshal meterW =
      { meter := (generateOutput meterW).2, running := true
        logs := [.debug (marshalFailMsg "boom"), .info (aggregateMsg "")] } :=
  ⟨meterW_services_nonempty, rfl,
   tickStep_marshal_failure badMarshal meterW "boom" meterW_services_nonempty
     rfl⟩

/-- C1: evaluation of the logger loop at the failing scenario.  Starting from
a fresh meter (no recorders), the first tick generates a meta-only output and
the routine RETURNS — `running` becomes `false` with no stop signal ever sent
— so a recording followed by a later tick produces no emission (the run's log
list is empty), although a tick taken on the meter holding that recording
would emit.  This contradicts the specified behaviour (skip the empty tick,
keep looping, terminate only on the stop signal). -/
theorem loggerRoutine_returns_on_empty_tick :
    (loggerRun okMarshal (newAggregatingMeter 0) true
      [.tick, .record meterValueServiceQuery "node1" 500, .tick]).2 =
      (false, ([] : List LogEvent)) ∧
    (tickStep okMarshal
      (meterRecord (newAggregatingMeter 0) meterValueServiceQuery "node1"
        500)).logs = [.info (aggregateMsg "x")] := by
  constructor
  · rfl
  · rfl

end Gocb

